import Mathlib

/-!
Verification development for the slotted-page storage engine in
`src/buzzdb_final.cpp`.  The C++ code is shallowly embedded: machine
integers become `Nat` (with explicit truncation `u16` wherever the source
assigns into a `uint16_t` field), the raw `char[PAGE_SIZE]` arena becomes a
total byte function `Nat → Nat`, and the slot directory (overlaid on the first
`metadata_size` bytes of the arena in the source) becomes a separate
`List Slot`; all operations considered here only touch arena bytes at
offsets at or above the directory, so the two-buffer view is faithful.
-/

set_option maxRecDepth 100000

def PAGE_SIZE : Nat := 4096
def MAX_SLOTS : Nat := 512
def INVALID_VALUE : Nat := 65535

/-- sizeof(Slot) on the usual ABI: bool (1) + padding (1) + two uint16 (4). -/
def SLOT_SIZE : Nat := 6

/-- Slot directory entry, from `struct Slot`.  `offset` and `length` model
`uint16_t` fields; every store into them in the embedded operations goes
through `u16`. -/
structure Slot where
  empty : Bool
  offset : Nat
  length : Nat
deriving Repr, DecidableEq

/-- Default member initializers of `struct Slot`:
`empty = true, offset = length = INVALID_VALUE`. -/
instance : Inhabited Slot := ⟨⟨true, INVALID_VALUE, INVALID_VALUE⟩⟩

/-- Truncation of a `size_t` value stored into a `uint16_t` field. -/
def u16 (n : Nat) : Nat := n % 65536

/-- A record; `Field` holds a single C++ `int`, modelled as `Int` (all
values arising in the claims fit in 32 bits, where the embedding and the
source agree exactly). -/
structure Tuple where
  fields : List Int
deriving Repr, DecidableEq

/-- `Tuple::getSize`: `sizeof(int) * fields.size()`. -/
def Tuple.getSize (t : Tuple) : Nat := 4 * t.fields.length

/-- Little-endian decimal digits of `n`, with explicit fuel (`fuel ≥ n`
suffices); used to model `operator<<` on integers. -/
def natDigitsLE : Nat → Nat → List Nat
  | 0, _ => []
  | f + 1, n => if n = 0 then [] else n % 10 :: natDigitsLE f (n / 10)

/-- Decimal rendering of a natural number as ASCII byte values, most
significant digit first, as `std::stringstream <<` produces it. -/
def natRender (n : Nat) : List Nat :=
  if n = 0 then [48] else ((natDigitsLE n n).reverse.map (fun d => d + 48))

/-- Decimal rendering of a C++ `int`: minus sign (byte 45) for negatives. -/
def intRender (v : Int) : List Nat :=
  if v < 0 then 45 :: natRender v.natAbs else natRender v.natAbs

/-- `Tuple::serialize`: every field rendered in decimal followed by a
single space (byte 32). -/
def Tuple.serialize (t : Tuple) : List Nat :=
  (t.fields.map (fun v => intRender v ++ [32])).flatten

/-- Whitespace test of the default locale, used by `operator>>`'s
whitespace skipping. -/
def isSpaceByte (b : Nat) : Bool :=
  b = 32 || b = 9 || b = 10 || b = 11 || b = 12 || b = 13

def isDigitByte (b : Nat) : Bool := 48 ≤ b && b ≤ 57

def signedVal (neg : Bool) (acc : Nat) : Int :=
  if neg then -(acc : Int) else (acc : Int)

/-- State of the `while (ss >> value)` extraction loop of
`Tuple::deserialize`: skipping whitespace before a token, just after a
sign character, inside a run of digits, or stopped after a failed
extraction. -/
inductive ParseState where
  | neutral : ParseState
  | signed : Bool → ParseState
  | num : Bool → Nat → ParseState
  | stopped : ParseState
deriving Repr, DecidableEq

structure ScanState where
  st : ParseState
  fields : List Int
deriving Repr, DecidableEq

/-- Transition taken on byte `b` while between tokens (whitespace
skipping / start of a new extraction). -/
def neutralStep (fs : List Int) (b : Nat) : ScanState :=
  if isSpaceByte b then ⟨.neutral, fs⟩
  else if b = 45 then ⟨.signed true, fs⟩
  else if b = 43 then ⟨.signed false, fs⟩
  else if isDigitByte b then ⟨.num false (b - 48), fs⟩
  else ⟨.stopped, fs⟩

/-- One byte of the extraction loop.  A digit extends the current number;
a non-digit ends the number, records the field, and is reprocessed as the
start of the next extraction; a failed extraction stops the loop for good
(exactly the behaviour of `while (ss >> value)`). -/
def scanStep (s : ScanState) (b : Nat) : ScanState :=
  match s.st with
  | .stopped => s
  | .neutral => neutralStep s.fields b
  | .signed neg =>
      if isDigitByte b then ⟨.num neg (b - 48), s.fields⟩ else ⟨.stopped, s.fields⟩
  | .num neg acc =>
      if isDigitByte b then ⟨.num neg (acc * 10 + (b - 48)), s.fields⟩
      else neutralStep (s.fields ++ [signedVal neg acc]) b

/-- End of input: a number still being read is extracted successfully. -/
def finishScan (s : ScanState) : List Int :=
  match s.st with
  | .num neg acc => s.fields ++ [signedVal neg acc]
  | _ => s.fields

/-- Field values produced by `Tuple::deserialize` on a byte string. -/
def deserializeBytes (bs : List Nat) : List Int :=
  finishScan (bs.foldl scanStep ⟨.neutral, []⟩)

/-- `Tuple::deserialize`. -/
def Tuple.deserialize (bs : List Nat) : Tuple := ⟨deserializeBytes bs⟩

/-- `memcpy(dst, src.c_str(), n)`: the first `n` bytes of the serialized
string.  When `n` exceeds the string's length the copy reads the
terminating null byte and then indeterminate bytes; they are modelled as 0
(every property proved here depends only on bytes up to the terminator,
where extraction already fails). -/
def cstrBytes (s : List Nat) (n : Nat) : List Nat :=
  (s ++ List.replicate n 0).take n

/-- Byte-wise store of `src` into the arena starting at `off`
(`memcpy`/`memmove` destination side).  The arena is modelled as a total
byte function; every access made by the embedded operations on the states
considered stays inside the 4096-byte buffer. -/
def writeBytes : (Nat → Nat) → Nat → List Nat → (Nat → Nat)
  | d, _, [] => d
  | d, off, b :: rest =>
      writeBytes (fun i => if i = off then b else d i) (off + 1) rest

/-- Byte-wise read of `len` bytes starting at `off`. -/
def readBytes (d : Nat → Nat) (off len : Nat) : List Nat :=
  (List.range len).map (fun k => d (off + k))

/-- In-memory page: slot directory, byte arena, and the `metadata_size`
member (`sizeof(Slot) * MAX_SLOTS` on construction, but a mutable field of
the class that `BufferManager::moveTupleAcrossPages` updates). -/
structure SlottedPage where
  slots : List Slot
  data : Nat → Nat
  metadata_size : Nat

/-- `SlottedPage()`: zero-initialized arena, all slots empty with
sentinel offset/length, directory size `sizeof(Slot) * MAX_SLOTS`. -/
def freshPage : SlottedPage :=
  { slots := List.replicate MAX_SLOTS default
    data := fun _ => 0
    metadata_size := SLOT_SIZE * MAX_SLOTS }

/-- The `for` loop of `addTuple` / the inner `for` loop of
`moveTupleAcrossPages`: index of the first empty slot, if any. -/
def firstEmptyIdx : List Slot → Option Nat
  | [] => none
  | s :: rest => if s.empty then some 0 else (firstEmptyIdx rest).map (· + 1)

/-- Line 85 of the source: the insertion offset used by `addTuple` for the
first empty slot `i` — `metadata_size` for `i = 0`, otherwise the end of
slot `i-1`'s byte range. -/
def insertOffset (p : SlottedPage) (i : Nat) : Nat :=
  if i = 0 then p.metadata_size
  else (p.slots.getD (i - 1) default).offset + (p.slots.getD (i - 1) default).length

/-- `SlottedPage::addTuple`. -/
def addTuple (p : SlottedPage) (t : Tuple) : SlottedPage × Bool :=
  let tuple_size := t.getSize
  let serialized := t.serialize
  match firstEmptyIdx p.slots with
  | none => (p, false)
  | some i =>
    let offset := insertOffset p i
    if PAGE_SIZE ≤ offset + tuple_size then (p, false)
    else
      ({ p with
          slots := p.slots.set i ⟨false, u16 offset, u16 tuple_size⟩
          data := writeBytes p.data offset (cstrBytes serialized tuple_size) }, true)

/-- `SlottedPage::deleteTuple`: only the `empty` flag is written; the
stale `offset`/`length` remain. -/
def deleteTuple (p : SlottedPage) (index : Nat) : SlottedPage :=
  if index < MAX_SLOTS ∧ (p.slots.getD index default).empty = false then
    { p with
        slots := p.slots.set index { p.slots.getD index default with empty := true } }
  else p

/-- Loop body of `SlottedPage::compactPage`, recursing over the slot
directory in index order while carrying the arena and `new_offset`. -/
def compactAux : List Slot → (Nat → Nat) → Nat → List Slot × (Nat → Nat)
  | [], d, _ => ([], d)
  | s :: rest, d, noff =>
    if s.empty then
      let r := compactAux rest d noff
      (s :: r.1, r.2)
    else
      let moved :=
        if s.offset ≠ noff then
          ({ s with offset := u16 noff },
           writeBytes d noff (readBytes d s.offset s.length))
        else (s, d)
      let r := compactAux rest moved.2 (noff + s.length)
      (moved.1 :: r.1, r.2)

/-- `SlottedPage::compactPage`.  `new_offset` starts at the page's current
`metadata_size` member; `memmove` is modelled as a read of the full source
range from the pre-move arena followed by a write (its overlap-safe
as-if-copied semantics). -/
def compactPage (p : SlottedPage) : SlottedPage :=
  let r := compactAux p.slots p.data p.metadata_size
  { p with slots := r.1, data := r.2 }

/-- The observable content of `SlottedPage::print`: for every occupied
slot in index order, the slot index paired with the field values of the
record deserialized from its byte range. -/
def enumerate (p : SlottedPage) : List (Nat × List Int) :=
  (List.range MAX_SLOTS).filterMap (fun i =>
    let s := p.slots.getD i default
    if s.empty then none
    else some (i, deserializeBytes (readBytes p.data s.offset s.length)))

/-- Result of the `j` search loop in `moveTupleAcrossPages`: the index the
destination directory entry is written at — `MAX_SLOTS` when no slot is
empty (in the source that write is out of the directory's bounds). -/
def destIndex (slots : List Slot) : Nat := (firstEmptyIdx slots).getD MAX_SLOTS

/-- The `for` loop of `BufferManager::moveTupleAcrossPages` over the given
source-slot indices.  On failure the current states are returned as they
are (no rollback, and `from_page.compactPage()` is not reached). -/
def moveAux : SlottedPage → SlottedPage → List Nat → SlottedPage × SlottedPage × Bool
  | fp, tp, [] => (compactPage fp, tp, true)
  | fp, tp, i :: rest =>
    let s := fp.slots.getD i default
    if s.empty then moveAux fp tp rest
    else
      let len := s.length
      let noff := tp.metadata_size
      if PAGE_SIZE ≤ noff + len then (fp, tp, false)
      else
        let fp' := { fp with slots := fp.slots.set i { s with empty := true } }
        let j := destIndex tp.slots
        let tp' := { tp with
            data := writeBytes tp.data noff (readBytes fp.data s.offset len)
            slots := tp.slots.set j ⟨false, u16 noff, u16 len⟩
            metadata_size := tp.metadata_size + len }
        moveAux fp' tp' rest

/-- `BufferManager::moveTupleAcrossPages`, acting on the two (distinct)
pages loaded from the storage manager and returning their new states
together with the boolean result. -/
def moveTupleAcrossPages (fp tp : SlottedPage) : SlottedPage × SlottedPage × Bool :=
  moveAux fp tp (List.range MAX_SLOTS)



/-- Value of a little-endian digit list. -/
def ofDigitsLE (l : List Nat) : Nat := l.foldr (fun d a => d + 10 * a) 0

/-- Value accumulated by the digit run of the extraction loop over ASCII
digit bytes, most significant first. -/
def digitsAcc (acc : Nat) (ds : List Nat) : Nat :=
  ds.foldl (fun a b => a * 10 + (b - 48)) acc

/-! ### Concrete pages used by the claim theorems

All byte sizes here are exact: each field value is chosen so that its
decimal rendering plus the trailing space fills exactly 4 bytes, so the
`memcpy` in `addTuple` copies precisely the serialized string. -/

/-- Fresh page with one record `[100]` inserted (slot 0, bytes 3072-3075). -/
def pA : SlottedPage := (addTuple freshPage ⟨[100]⟩).1

/-- `pA` with `[200]` inserted (slot 1, bytes 3076-3079). -/
def pAB : SlottedPage := (addTuple pA ⟨[200]⟩).1

/-- `pAB` with `[111]` inserted (slot 2, bytes 3080-3083). -/
def pABC : SlottedPage := (addTuple pAB ⟨[111]⟩).1

/-- `pABC` after `deleteTuple(1)`. -/
def pDel1 : SlottedPage := deleteTuple pABC 1

/-- `pDel1` after inserting the 8-byte record `[500, 600]`: it reuses
slot 1 at offset 3076 (computed from slot 0, not from a high-water mark)
and its byte range [3076, 3084) overlaps slot 2's range [3080, 3084). -/
def pOverlap : SlottedPage := (addTuple pDel1 ⟨[500, 600]⟩).1

/-- `pOverlap` with `[700]` inserted (slot 3 at offset 3084). -/
def pCorrupt : SlottedPage := (addTuple pOverlap ⟨[700]⟩).1

/-- `pAB` after `deleteTuple(0)`. -/
def pDel0 : SlottedPage := deleteTuple pAB 0

/-- `pDel0` after inserting `[111]`, which lands in slot 0 at offset
`metadata_size = 3072` although the last-appended record (slot 1) ends at
3080. -/
def pC2 : SlottedPage := (addTuple pDel0 ⟨[111]⟩).1

/-- A record of exactly 20 serialized bytes. -/
def tup20 : Tuple := ⟨[100, 200, 300, 400, 500]⟩

/-- Source page of scenario D: one 20-byte record in slot 0. -/
def srcD : SlottedPage := (addTuple freshPage tup20).1

/-- Destination page of scenario D: 10 bytes of free space
(`PAGE_SIZE - metadata_size = 10`). -/
def dstD : SlottedPage := { freshPage with metadata_size := 4086 }

/-- A fully occupied slot directory (reachable by 512 insertions of
zero-field tuples, each of `getSize` 0, all at offset 3072). -/
def fullSlots : List Slot := List.replicate MAX_SLOTS ⟨false, 3072, 0⟩

/-- Destination page whose directory has no empty slot. -/
def dstFull : SlottedPage := { freshPage with slots := fullSlots }

/-- Page with no free directory entry, for the all-slots-occupied insert
failure. -/
def pFull : SlottedPage := { freshPage with slots := fullSlots }

/-- A 256-field record: `getSize = 1024`, one byte more than fits. -/
def bigTuple : Tuple := ⟨List.replicate 256 0⟩

/-- Page whose slot 0 ends at byte 4091, so a 4-byte insert ends exactly
at `PAGE_SIZE - 1`. -/
def pBoundary : SlottedPage :=
  { freshPage with slots := freshPage.slots.set 0 ⟨false, 3072, 1019⟩ }

/-- Single-slot page used to instantiate the compaction theorem. -/
def wpCompact : SlottedPage :=
  { slots := [⟨false, 3072, 4⟩]
    data := fun _ => 0
    metadata_size := 3072 }

/-! ### Helper lemmas about list indexing and the byte arena -/

lemma getD_set_self {α : Type} (l : List α) (i : Nat) (a d : α) (h : i < l.length) :
    (l.set i a).getD i d = a := by
  induction l generalizing i with
  | nil => simp at h
  | cons b rest ih =>
    cases i with
    | zero => rfl
    | succ i => simpa using ih i (by simpa using h)

lemma getD_set_ne {α : Type} (l : List α) (i j : Nat) (a d : α) (h : i ≠ j) :
    (l.set i a).getD j d = l.getD j d := by
  induction l generalizing i j with
  | nil => rfl
  | cons b rest ih =>
    cases i with
    | zero =>
      cases j with
      | zero => exact absurd rfl h
      | succ j => rfl
    | succ i =>
      cases j with
      | zero => rfl
      | succ j => simpa using ih i j (by omega)

lemma set_of_length_le {α : Type} (l : List α) (i : Nat) (a : α) (h : l.length ≤ i) :
    l.set i a = l := by
  induction l generalizing i with
  | nil => rfl
  | cons b rest ih =>
    cases i with
    | zero => simp at h
    | succ i => simpa using ih i (by simpa using h)

lemma getD_replicate {α : Type} (n k : Nat) (a : α) :
    (List.replicate n a).getD k a = a := by
  induction n generalizing k with
  | zero => rfl
  | succ n ih =>
    cases k with
    | zero => rfl
    | succ k => simp only [List.replicate_succ, List.getD_cons_succ]; exact ih k

lemma getD_eq_default_of_le {α : Type} (l : List α) (k : Nat) (d : α)
    (h : l.length ≤ k) : l.getD k d = d := by
  induction l generalizing k with
  | nil => rfl
  | cons b rest ih =>
    cases k with
    | zero => simp at h
    | succ k => simpa using ih k (by simpa using h)

lemma getD_mem {α : Type} (l : List α) (k : Nat) (d : α) (h : k < l.length) :
    l.getD k d ∈ l := by
  induction l generalizing k with
  | nil => simp at h
  | cons b rest ih =>
    cases k with
    | zero => simp [List.getD]
    | succ k => exact List.mem_cons_of_mem _ (ih k (by simpa using h))

lemma writeBytes_at_lt (src : List Nat) (d : Nat → Nat) (off idx : Nat)
    (h : idx < off) : writeBytes d off src idx = d idx := by
  induction src generalizing d off with
  | nil => rfl
  | cons b rest ih =>
    rw [writeBytes, ih _ (off + 1) (by omega)]
    exact if_neg (by omega)

lemma writeBytes_at_ge (src : List Nat) (d : Nat → Nat) (off idx : Nat)
    (h : off + src.length ≤ idx) : writeBytes d off src idx = d idx := by
  induction src generalizing d off with
  | nil => rfl
  | cons b rest ih =>
    rw [writeBytes, ih _ (off + 1) (by simp at h; omega)]
    exact if_neg (by simp at h; omega)

lemma writeBytes_at_in (src : List Nat) (d : Nat → Nat) (off k : Nat)
    (hk : k < src.length) :
    writeBytes d off src (off + k) = src.getD k 0 := by
  induction src generalizing d off k with
  | nil => simp at hk
  | cons b rest ih =>
    cases k with
    | zero =>
      rw [writeBytes, writeBytes_at_lt rest _ _ _ (by omega)]
      simp
    | succ k =>
      rw [writeBytes, show off + (k + 1) = (off + 1) + k from by omega,
        ih _ (off + 1) k (by simpa using hk)]
      rfl

lemma readBytes_length (d : Nat → Nat) (off len : Nat) :
    (readBytes d off len).length = len := by simp [readBytes]

lemma map_range_getD (l : List Nat) :
    (List.range l.length).map (fun k => l.getD k 0) = l := by
  induction l with
  | nil => rfl
  | cons b rest ih =>
    rw [List.length_cons, List.range_succ_eq_map, List.map_cons, List.map_map]
    exact congrArg (b :: ·) ih

lemma readBytes_congr (d1 d2 : Nat → Nat) (off len : Nat)
    (h : ∀ idx, off ≤ idx → idx < off + len → d1 idx = d2 idx) :
    readBytes d1 off len = readBytes d2 off len := by
  unfold readBytes
  refine List.map_congr_left (fun k hk => ?_)
  exact h (off + k) (by omega) (by simp [List.mem_range] at hk; omega)

lemma readBytes_writeBytes (src : List Nat) (d : Nat → Nat) (off : Nat) :
    readBytes (writeBytes d off src) off src.length = src := by
  unfold readBytes
  rw [List.map_congr_left (fun k hk => writeBytes_at_in src d off k
    (by simpa [List.mem_range] using hk))]
  exact map_range_getD src

lemma readBytes_writeBytes_below (src : List Nat) (d : Nat → Nat) (off o2 l2 : Nat)
    (h : o2 + l2 ≤ off) :
    readBytes (writeBytes d off src) o2 l2 = readBytes d o2 l2 :=
  readBytes_congr _ _ _ _ (fun idx _ h2 =>
    writeBytes_at_lt src d off idx (by omega))

lemma readBytes_writeBytes_above (src : List Nat) (d : Nat → Nat) (off o2 l2 : Nat)
    (h : off + src.length ≤ o2) :
    readBytes (writeBytes d off src) o2 l2 = readBytes d o2 l2 :=
  readBytes_congr _ _ _ _ (fun idx h1 _ =>
    writeBytes_at_ge src d off idx (by omega))

lemma firstEmptyIdx_some (l : List Slot) (k : Nat) (h : firstEmptyIdx l = some k) :
    k < l.length ∧ (l.getD k default).empty = true := by
  induction l generalizing k with
  | nil => simp [firstEmptyIdx] at h
  | cons s rest ih =>
    by_cases hs : s.empty
    · simp [firstEmptyIdx, hs] at h
      subst h
      simpa [List.getD] using hs
    · simp [firstEmptyIdx, hs] at h
      obtain ⟨k', hk', rfl⟩ := h
      obtain ⟨h1, h2⟩ := ih k' hk'
      exact ⟨by simpa using h1, by simpa using h2⟩

lemma occupied_lt_length (l : List Slot) (k : Nat)
    (h : (l.getD k default).empty = false) : k < l.length := by
  by_contra hc
  rw [getD_eq_default_of_le l k default (by omega)] at h
  simp [default] at h

/-! ### Decimal rendering and extraction round trip -/

lemma ofDigitsLE_natDigitsLE (f : Nat) : ∀ n, n ≤ f →
    ofDigitsLE (natDigitsLE f n) = n := by
  induction f with
  | zero => intro n h; interval_cases n; rfl
  | succ f ih =>
    intro n h
    by_cases hn : n = 0
    · simp [hn, natDigitsLE, ofDigitsLE]
    · have hd : n / 10 ≤ f := by
        have := Nat.div_lt_self (Nat.pos_of_ne_zero hn) (by norm_num : 1 < 10)
        omega
      simp only [natDigitsLE, hn, if_false, ofDigitsLE, List.foldr_cons]
      rw [show (natDigitsLE f (n / 10)).foldr (fun d a => d + 10 * a) 0
            = ofDigitsLE (natDigitsLE f (n / 10)) from rfl, ih _ hd]
      omega

lemma natDigitsLE_lt_ten (f : Nat) : ∀ n, ∀ d ∈ natDigitsLE f n, d < 10 := by
  induction f with
  | zero => intro n d h; simp [natDigitsLE] at h
  | succ f ih =>
    intro n d h
    by_cases hn : n = 0
    · simp [natDigitsLE, hn] at h
    · simp only [natDigitsLE, hn, if_false, List.mem_cons] at h
      rcases h with h | h
      · omega
      · exact ih _ d h

lemma digitsAcc_reverse_map (l : List Nat) (hl : ∀ d ∈ l, d < 10) (acc : Nat) :
    digitsAcc acc (l.reverse.map (fun d => d + 48)) = acc * 10 ^ l.length + ofDigitsLE l := by
  induction l generalizing acc with
  | nil => simp [digitsAcc, ofDigitsLE]
  | cons d t ih =>
    have hd : d < 10 := hl d (List.mem_cons_self d t)
    have ht : ∀ x ∈ t, x < 10 := fun x hx => hl x (List.mem_cons_of_mem d hx)
    simp only [List.reverse_cons, List.map_append, List.map_cons, List.map_nil]
    unfold digitsAcc
    rw [List.foldl_append, show (t.reverse.map (fun d => d + 48)).foldl
        (fun a b => a * 10 + (b - 48)) acc = digitsAcc acc (t.reverse.map (fun d => d + 48))
      from rfl, ih ht]
    simp only [List.foldl_cons, List.foldl_nil, ofDigitsLE, List.foldr_cons,
      List.length_cons]
    rw [show (t.foldr (fun d a => d + 10 * a) 0) = ofDigitsLE t from rfl]
    ring_nf
    omega

lemma digitsAcc_natRender (n : Nat) : digitsAcc 0 (natRender n) = n := by
  by_cases hn : n = 0
  · simp [hn, natRender, digitsAcc]
  · unfold natRender
    rw [if_neg hn, digitsAcc_reverse_map _ (natDigitsLE_lt_ten n n), zero_mul,
      zero_add, ofDigitsLE_natDigitsLE n n le_rfl]

lemma natRender_ne_nil (n : Nat) : natRender n ≠ [] := by
  by_cases hn : n = 0
  · simp [natRender, hn]
  · have : natDigitsLE n n ≠ [] := by
      cases n with
      | zero => exact absurd rfl hn
      | succ m => simp [natDigitsLE]
    simp [natRender, hn, this]

lemma natRender_digits (n : Nat) : ∀ b ∈ natRender n, isDigitByte b = true := by
  intro b hb
  by_cases hn : n = 0
  · simp [natRender, hn] at hb
    simp [hb, isDigitByte]
  · simp only [natRender, hn, if_false, List.mem_map, List.mem_reverse] at hb
    obtain ⟨d, hd, rfl⟩ := hb
    have := natDigitsLE_lt_ten n n d hd
    simp [isDigitByte]
    omega

lemma isSpaceByte_of_digit (b : Nat) (h : isDigitByte b = true) :
    isSpaceByte b = false ∧ b ≠ 45 ∧ b ≠ 43 := by
  simp [isDigitByte] at h
  simp [isSpaceByte]
  omega

lemma foldl_scanStep_stopped (bs : List Nat) (fs : List Int) :
    bs.foldl scanStep ⟨.stopped, fs⟩ = ⟨.stopped, fs⟩ := by
  induction bs with
  | nil => rfl
  | cons b rest ih => simpa [scanStep] using ih

lemma foldl_scanStep_digits (ds : List Nat) (h : ∀ b ∈ ds, isDigitByte b = true)
    (neg : Bool) (acc : Nat) (fs : List Int) :
    ds.foldl scanStep ⟨.num neg acc, fs⟩ = ⟨.num neg (digitsAcc acc ds), fs⟩ := by
  induction ds generalizing acc with
  | nil => rfl
  | cons b rest ih =>
    have hb : isDigitByte b = true := h b (List.mem_cons_self b rest)
    simp only [List.foldl_cons, scanStep, hb, if_true]
    rw [ih (fun x hx => h x (List.mem_cons_of_mem b hx))]
    rfl

lemma foldl_scanStep_natRender_neutral (n : Nat) (fs : List Int) :
    (natRender n).foldl scanStep ⟨.neutral, fs⟩ = ⟨.num false n, fs⟩ := by
  rcases hr : natRender n with _ | ⟨b, ds⟩
  · exact absurd hr (natRender_ne_nil n)
  · have hb : isDigitByte b = true := by
      have := natRender_digits n b; rw [hr] at this
      exact this (List.mem_cons_self b ds)
    have hds : ∀ x ∈ ds, isDigitByte x = true := by
      intro x hx
      have := natRender_digits n x; rw [hr] at this
      exact this (List.mem_cons_of_mem b hx)
    obtain ⟨hsp, h45, h43⟩ := isSpaceByte_of_digit b hb
    simp only [List.foldl_cons, scanStep, neutralStep, hsp, hb, if_false, if_true,
      h45, h43, Bool.false_eq_true]
    rw [foldl_scanStep_digits ds hds]
    have : digitsAcc (b - 48) ds = n := by
      have := digitsAcc_natRender n
      rw [hr] at this
      simpa [digitsAcc] using this
    rw [this]

lemma foldl_scanStep_natRender_signed (n : Nat) (neg : Bool) (fs : List Int) :
    (natRender n).foldl scanStep ⟨.signed neg, fs⟩ = ⟨.num neg n, fs⟩ := by
  rcases hr : natRender n with _ | ⟨b, ds⟩
  · exact absurd hr (natRender_ne_nil n)
  · have hb : isDigitByte b = true := by
      have := natRender_digits n b; rw [hr] at this
      exact this (List.mem_cons_self b ds)
    have hds : ∀ x ∈ ds, isDigitByte x = true := by
      intro x hx
      have := natRender_digits n x; rw [hr] at this
      exact this (List.mem_cons_of_mem b hx)
    simp only [List.foldl_cons, scanStep, hb, if_true]
    rw [foldl_scanStep_digits ds hds]
    have : digitsAcc (b - 48) ds = n := by
      have := digitsAcc_natRender n
      rw [hr] at this
      simpa [digitsAcc] using this
    rw [this]

lemma foldl_scanStep_intRender (v : Int) (fs : List Int) :
    (intRender v ++ [32]).foldl scanStep ⟨.neutral, fs⟩ = ⟨.neutral, fs ++ [v]⟩ := by
  rw [List.foldl_append]
  by_cases hv : v < 0
  · simp only [intRender, hv, if_true, List.foldl_cons]
    rw [show scanStep ⟨ParseState.neutral, fs⟩ 45 = ⟨ParseState.signed true, fs⟩ from rfl,
      foldl_scanStep_natRender_signed]
    simp only [List.foldl_cons, List.foldl_nil]
    rw [show scanStep ⟨ParseState.num true v.natAbs, fs⟩ 32
        = ⟨ParseState.neutral, fs ++ [signedVal true v.natAbs]⟩ from rfl,
      show signedVal true v.natAbs = -((v.natAbs : Int)) from rfl,
      show -((v.natAbs : Int)) = v by omega]
  · simp only [intRender, hv, if_false]
    rw [foldl_scanStep_natRender_neutral]
    simp only [List.foldl_cons, List.foldl_nil]
    rw [show scanStep ⟨ParseState.num false v.natAbs, fs⟩ 32
        = ⟨ParseState.neutral, fs ++ [signedVal false v.natAbs]⟩ from rfl,
      show signedVal false v.natAbs = ((v.natAbs : Int)) from rfl,
      show ((v.natAbs : Int)) = v by omega]

lemma foldl_scanStep_serialize (l : List Int) (fs : List Int) :
    ((l.map (fun v => intRender v ++ [32])).flatten).foldl scanStep ⟨.neutral, fs⟩
      = ⟨.neutral, fs ++ l⟩ := by
  induction l generalizing fs with
  | nil => simp
  | cons v t ih =>
    rw [List.map_cons, List.flatten_cons, List.foldl_append, foldl_scanStep_intRender,
      ih]
    simp

lemma foldl_scanStep_zeros (k : Nat) (fs : List Int) :
    finishScan ((List.replicate k 0).foldl scanStep ⟨.neutral, fs⟩) = fs := by
  cases k with
  | zero => rfl
  | succ j =>
    simp only [List.replicate_succ, List.foldl_cons, scanStep, neutralStep]
    norm_num [isSpaceByte, isDigitByte]
    rw [foldl_scanStep_stopped]
    rfl

lemma deserializeBytes_serialize (t : Tuple) :
    deserializeBytes t.serialize = t.fields := by
  unfold deserializeBytes Tuple.serialize
  rw [foldl_scanStep_serialize]
  rfl

lemma deserializeBytes_serialize_zeros (t : Tuple) (k : Nat) :
    deserializeBytes (t.serialize ++ List.replicate k 0) = t.fields := by
  unfold deserializeBytes Tuple.serialize
  rw [List.foldl_append, foldl_scanStep_serialize]
  simpa using foldl_scanStep_zeros k t.fields

/-! ### Claim theorems -/

/-- C1.  The claimed slot invariant is violated by the code: starting from
a fresh page, the sequence insert [100], insert [200], insert [111],
delete slot 1, insert [500, 600] leaves occupied slots 1 and 2 with
overlapping byte ranges [3076, 3084) and [3080, 3084) — `addTuple`
recomputes the offset from slot `i-1` instead of a high-water mark, so a
record reusing a tombstoned slot may be larger than the tombstone. -/
theorem insert_after_delete_overlapping_slots :
    pOverlap.slots.getD 1 default = ⟨false, 3076, 8⟩
    ∧ pOverlap.slots.getD 2 default = ⟨false, 3080, 4⟩
    ∧ 3080 < 3076 + 8 := by decide

/-- C2.  A successful insert does not write at the high-water mark: in
`pDel0` the last-appended record (slot 1) occupies [3076, 3080), so the
first free byte after it is 3080, yet inserting `[111]` succeeds and
activates slot 0 with offset 3072 — `addTuple` derives the offset from
slot `i-1` (here the `i = 0` branch), not from a page-level high-water
mark. -/
theorem insert_not_at_high_water_mark :
    (addTuple pDel0 ⟨[111]⟩).2 = true
    ∧ pC2.slots.getD 0 default = ⟨false, 3072, 4⟩
    ∧ pC2.slots.getD 1 default = ⟨false, 3076, 4⟩
    ∧ (3072 : Nat) ≠ 3076 + 4 := by decide

set_option maxHeartbeats 4000000 in
/-- C3 counterexample.  On the reachable page `pCorrupt` (fresh page,
insert [100], [200], [111], delete 1, insert [500, 600], insert [700])
compaction changes the multiset of (slot index, record) pairs: slot 3
reads [700] before `compactPage` and [600] after, because the compaction
pass shifts slot 2's (overlapping) bytes onto slot 3's not-yet-moved
bytes. -/
theorem compactPage_changes_content :
    Multiset.ofList (enumerate (compactPage pCorrupt))
      ≠ Multiset.ofList (enumerate pCorrupt) := by decide

/-- C7 counterexample.  `moveTupleAcrossPages` mutates the destination
page's `metadata_size` member (line `to_page.metadata_size += length`):
moving `pA`'s single 4-byte record into a fresh page leaves the
destination with `metadata_size = 3076 ≠ 3072`. -/
theorem move_mutates_destination_metadata_size :
    (moveTupleAcrossPages pA freshPage).2.1.metadata_size ≠ freshPage.metadata_size := by
  decide

/-- C8 counterexample.  `deleteTuple` only clears the occupied flag:
after inserting [100] into a fresh page and deleting slot 0, the
non-occupied slot 0 still carries its stale `offset = 3072` and
`length = 4` instead of the sentinel `INVALID_VALUE`. -/
theorem delete_leaves_stale_offset :
    (deleteTuple pA 0).slots.getD 0 default = ⟨true, 3072, 4⟩
    ∧ (3072 : Nat) ≠ INVALID_VALUE := by decide

/-- C9.  With a fully occupied destination directory the free-slot search
of `moveTupleAcrossPages` terminates with `j = MAX_SLOTS` and the source
then writes the directory entry `to_slots[MAX_SLOTS]` out of bounds (the
first 6 bytes of the data region); the move still reports success while
the destination directory is unchanged and the record has been dropped
from the source.  `dstFull` is reachable by 512 inserts of zero-field
tuples. -/
theorem move_activates_out_of_bounds_slot :
    destIndex dstFull.slots = MAX_SLOTS
    ∧ (pA.slots.getD 0 default).empty = false
    ∧ dstFull.metadata_size + (pA.slots.getD 0 default).length < PAGE_SIZE
    ∧ (moveTupleAcrossPages pA dstFull).2.2 = true
    ∧ (moveTupleAcrossPages pA dstFull).2.1.slots = dstFull.slots := by decide

/-! ### Lemmas about the move loop -/

lemma moveAux_from_metadata (is : List Nat) : ∀ fp tp : SlottedPage,
    (moveAux fp tp is).1.metadata_size = fp.metadata_size := by
  induction is with
  | nil => intro fp tp; rfl
  | cons i rest ih =>
    intro fp tp
    rw [moveAux]
    by_cases hs : (fp.slots.getD i default).empty = true
    · simp only [hs, if_true]
      exact ih fp tp
    · simp only [hs, if_false, Bool.false_eq_true]
      by_cases hroom : PAGE_SIZE ≤ tp.metadata_size + (fp.slots.getD i default).length
      · simp only [hroom, if_true]
      · simp only [hroom, if_false]
        exact ih _ _

lemma moveAux_fail (is : List Nat) : ∀ fp tp fp' tp' : SlottedPage,
    tp.slots.length = MAX_SLOTS →
    moveAux fp tp is = (fp', tp', false) →
    (∃ i ∈ is, (fp'.slots.getD i default).empty = false
        ∧ fp'.slots.getD i default = fp.slots.getD i default
        ∧ PAGE_SIZE ≤ tp'.metadata_size + (fp'.slots.getD i default).length)
    ∧ (∀ j, (tp.slots.getD j default).empty = false →
          tp'.slots.getD j default = tp.slots.getD j default)
    ∧ tp.metadata_size ≤ tp'.metadata_size := by
  induction is with
  | nil =>
    intro fp tp fp' tp' _ h
    simp [moveAux] at h
  | cons i rest ih =>
    intro fp tp fp' tp' hlen h
    rw [moveAux] at h
    by_cases hs : (fp.slots.getD i default).empty = true
    · simp only [hs, if_true] at h
      obtain ⟨⟨i', hi', p1, p2, p3⟩, c2, c3⟩ := ih fp tp fp' tp' hlen h
      exact ⟨⟨i', List.mem_cons_of_mem i hi', p1, p2, p3⟩, c2, c3⟩
    · simp only [hs, if_false, Bool.false_eq_true] at h
      by_cases hroom : PAGE_SIZE ≤ tp.metadata_size + (fp.slots.getD i default).length
      · simp only [hroom, if_true, Prod.mk.injEq] at h
        obtain ⟨h1, h2, -⟩ := h
        subst h1; subst h2
        refine ⟨⟨i, List.mem_cons_self i rest, ?_, rfl, hroom⟩, fun j _ => rfl, le_rfl⟩
        simpa using hs
      · simp only [hroom, if_false] at h
        have hocc : i < fp.slots.length :=
          occupied_lt_length fp.slots i (by simpa using hs)
        have hlen2 : ({ tp with
            data := writeBytes tp.data tp.metadata_size
              (readBytes fp.data (fp.slots.getD i default).offset
                (fp.slots.getD i default).length)
            slots := tp.slots.set (destIndex tp.slots)
              ⟨false, u16 tp.metadata_size, u16 (fp.slots.getD i default).length⟩
            metadata_size := tp.metadata_size + (fp.slots.getD i default).length }
              : SlottedPage).slots.length = MAX_SLOTS := by
          simpa using hlen
        obtain ⟨⟨i', hi', p1, p2, p3⟩, c2, c3⟩ := ih _ _ fp' tp' hlen2 h
        have htpj : ∀ j, (tp.slots.getD j default).empty = false →
            (tp.slots.set (destIndex tp.slots)
              ⟨false, u16 tp.metadata_size, u16 (fp.slots.getD i default).length⟩).getD j default
            = tp.slots.getD j default := by
          intro j hj
          rcases hfe : firstEmptyIdx tp.slots with _ | k
          · rw [show destIndex tp.slots = MAX_SLOTS by simp [destIndex, hfe],
              set_of_length_le _ _ _ (le_of_eq hlen)]
          · obtain ⟨-, hk2⟩ := firstEmptyIdx_some tp.slots k hfe
            have hkj : k ≠ j := by
              intro hkj; rw [hkj, hj] at hk2; simp at hk2
            rw [show destIndex tp.slots = k by simp [destIndex, hfe],
              getD_set_ne _ _ _ _ _ hkj]
        constructor
        · refine ⟨i', List.mem_cons_of_mem i hi', p1, ?_, p3⟩
          rw [p2]
          have hne : i ≠ i' := by
            intro hii
            subst hii
            rw [p2, getD_set_self _ _ _ _ hocc] at p1
            simp at p1
          exact getD_set_ne _ _ _ _ _ hne
        constructor
        · intro j hj
          rw [c2 j (by rw [htpj j hj]; exact hj), htpj j hj]
        · calc tp.metadata_size
              ≤ tp.metadata_size + (fp.slots.getD i default).length := Nat.le_add_right _ _
            _ ≤ tp'.metadata_size := c3

/-- C4.  When `moveTupleAcrossPages` fails, some source slot (the one the
destination lacked room for) is still occupied in the resulting source
page with its directory entry untouched, the destination's final
`metadata_size` indeed leaves no room for it, every slot occupied in the
destination at call time is untouched, and the destination's consumed
space only grows (records moved before the failure are not rolled back).
Scenario D: with 10 free bytes in the destination and a single 20-byte
source record, the call returns false and leaves both pages exactly as
they were, the source slot still occupied. -/
theorem move_failure_keeps_source_record :
    (∀ fp tp fp' tp' : SlottedPage, tp.slots.length = MAX_SLOTS →
        moveTupleAcrossPages fp tp = (fp', tp', false) →
        (∃ i, i < MAX_SLOTS ∧ (fp'.slots.getD i default).empty = false
            ∧ fp'.slots.getD i default = fp.slots.getD i default
            ∧ PAGE_SIZE ≤ tp'.metadata_size + (fp'.slots.getD i default).length)
        ∧ (∀ j, (tp.slots.getD j default).empty = false →
              tp'.slots.getD j default = tp.slots.getD j default)
        ∧ tp.metadata_size ≤ tp'.metadata_size)
    ∧ moveTupleAcrossPages srcD dstD = (srcD, dstD, false)
    ∧ (srcD.slots.getD 0 default).empty = false := by
  refine ⟨?_, rfl, by decide⟩
  intro fp tp fp' tp' hlen h
  obtain ⟨⟨i, hi, p1, p2, p3⟩, c2, c3⟩ :=
    moveAux_fail (List.range MAX_SLOTS) fp tp fp' tp' hlen h
  exact ⟨⟨i, List.mem_range.mp hi, p1, p2, p3⟩, c2, c3⟩

/-- Witness for the failure branch of `move_failure_keeps_source_record`,
instantiated on scenario D. -/
theorem move_failure_keeps_source_record_witness :
    (∃ i, i < MAX_SLOTS ∧ (srcD.slots.getD i default).empty = false
        ∧ srcD.slots.getD i default = srcD.slots.getD i default
        ∧ PAGE_SIZE ≤ dstD.metadata_size + (srcD.slots.getD i default).length)
    ∧ (∀ j, (dstD.slots.getD j default).empty = false →
          dstD.slots.getD j default = dstD.slots.getD j default)
    ∧ dstD.metadata_size ≤ dstD.metadata_size :=
  move_failure_keeps_source_record.1 srcD dstD srcD dstD (by decide) rfl

/-- C7 amended.  `metadata_size` starts at `sizeof(Slot) * MAX_SLOTS` and
is preserved by every page-local operation (insert, delete, compact) and
by a move on the source page; it is not a constant of the class, though:
the move mutates the destination's field (see
`move_mutates_destination_metadata_size`). -/
theorem page_local_operations_preserve_metadata_size :
    freshPage.metadata_size = SLOT_SIZE * MAX_SLOTS
    ∧ (∀ p t, (addTuple p t).1.metadata_size = p.metadata_size)
    ∧ (∀ p i, (deleteTuple p i).metadata_size = p.metadata_size)
    ∧ (∀ p, (compactPage p).metadata_size = p.metadata_size)
    ∧ (∀ p q, (moveTupleAcrossPages p q).1.metadata_size = p.metadata_size) := by
  refine ⟨rfl, ?_, ?_, fun p => rfl, fun p q => moveAux_from_metadata _ p q⟩
  · intro p t
    unfold addTuple
    rcases firstEmptyIdx p.slots with _ | i
    · rfl
    · by_cases hroom : PAGE_SIZE ≤ insertOffset p i + t.getSize
      · simp only [hroom, if_true]
      · simp only [hroom, if_false]
  · intro p i
    unfold deleteTuple
    split <;> rfl

/-- C8 amended.  On a fresh page every slot carries the sentinel
`offset = length = INVALID_VALUE`; `deleteTuple`, however, never writes
those fields — it preserves `offset` and `length` of every slot verbatim,
so a tombstoned slot keeps its stale values rather than the sentinel. -/
theorem fresh_sentinel_and_delete_preserves_fields :
    (∀ k, freshPage.slots.getD k default = ⟨true, INVALID_VALUE, INVALID_VALUE⟩)
    ∧ (∀ p i j, ((deleteTuple p i).slots.getD j default).offset
          = (p.slots.getD j default).offset
        ∧ ((deleteTuple p i).slots.getD j default).length
          = (p.slots.getD j default).length) := by
  constructor
  · intro k
    exact getD_replicate MAX_SLOTS k default
  · intro p i j
    unfold deleteTuple
    split
    case isTrue h =>
      by_cases hij : i = j
      · subst hij
        have hi : i < p.slots.length := occupied_lt_length _ _ h.2
        rw [getD_set_self _ _ _ _ hi]
        exact ⟨rfl, rfl⟩
      · rw [getD_set_ne _ _ _ _ _ hij]
        exact ⟨rfl, rfl⟩
    case isFalse h => exact ⟨rfl, rfl⟩

/-! ### Unfolding equations for addTuple -/

lemma addTuple_none (p : SlottedPage) (t : Tuple)
    (h : firstEmptyIdx p.slots = none) : addTuple p t = (p, false) := by
  unfold addTuple
  rw [h]

lemma addTuple_some (p : SlottedPage) (t : Tuple) (i : Nat)
    (h : firstEmptyIdx p.slots = some i) :
    addTuple p t =
      if PAGE_SIZE ≤ insertOffset p i + t.getSize then (p, false)
      else ({ p with
          slots := p.slots.set i ⟨false, u16 (insertOffset p i), u16 t.getSize⟩
          data := writeBytes p.data (insertOffset p i)
            (cstrBytes t.serialize t.getSize) }, true) := by
  unfold addTuple
  rw [h]

/-- C5.  Insert failure modes: with no empty directory slot `addTuple`
fails; with the insertion offset plus the record size exceeding
`PAGE_SIZE - 1` it fails; every failing insert returns the page
completely unchanged; and an insert ending exactly at `PAGE_SIZE - 1`
succeeds. -/
theorem insert_failure_modes_and_boundary (p : SlottedPage) (t : Tuple) :
    (firstEmptyIdx p.slots = none → addTuple p t = (p, false))
    ∧ (∀ i, firstEmptyIdx p.slots = some i →
        PAGE_SIZE - 1 < insertOffset p i + t.getSize → addTuple p t = (p, false))
    ∧ ((addTuple p t).2 = false → (addTuple p t).1 = p)
    ∧ (∀ i, firstEmptyIdx p.slots = some i →
        insertOffset p i + t.getSize = PAGE_SIZE - 1 → (addTuple p t).2 = true) := by
  have hps : PAGE_SIZE = 4096 := rfl
  refine ⟨fun h => addTuple_none p t h, ?_, ?_, ?_⟩
  · intro i hi hover
    rw [addTuple_some p t i hi, if_pos (by omega : PAGE_SIZE ≤ insertOffset p i + t.getSize)]
  · intro h2
    rcases hfe : firstEmptyIdx p.slots with _ | i
    · rw [addTuple_none p t hfe]
    · rw [addTuple_some p t i hfe] at h2 ⊢
      by_cases hroom : PAGE_SIZE ≤ insertOffset p i + t.getSize
      · rw [if_pos hroom]
      · rw [if_neg hroom] at h2
        simp at h2
  · intro i hi hexact
    rw [addTuple_some p t i hi,
      if_neg (by omega : ¬ PAGE_SIZE ≤ insertOffset p i + t.getSize)]

/-- Witness for `insert_failure_modes_and_boundary`: a full directory
fails, a 1024-byte record on a fresh page fails leaving the page intact,
and a record ending exactly at byte 4095 succeeds. -/
theorem insert_failure_modes_and_boundary_witness :
    addTuple pFull ⟨[7]⟩ = (pFull, false)
    ∧ addTuple freshPage bigTuple = (freshPage, false)
    ∧ (addTuple pBoundary ⟨[7]⟩).2 = true :=
  ⟨(insert_failure_modes_and_boundary pFull ⟨[7]⟩).1 (by decide),
   (insert_failure_modes_and_boundary freshPage bigTuple).2.1 0 (by decide) (by decide),
   (insert_failure_modes_and_boundary pBoundary ⟨[7]⟩).2.2.2 1 (by decide) (by decide)⟩

/-- C6.  Serialization round trip: deserializing the serialized byte
string of any record yields the same field values (and hence the same
field count). -/
theorem deserialize_serialize_roundtrip (t : Tuple) :
    (Tuple.deserialize t.serialize).fields = t.fields
    ∧ (Tuple.deserialize t.serialize).fields.length = t.fields.length := by
  have h : (Tuple.deserialize t.serialize).fields = t.fields :=
    deserializeBytes_serialize t
  exact ⟨h, by rw [h]⟩

/-! ### Reading back a single inserted record -/

lemma cstrBytes_length (s : List Nat) (n : Nat) : (cstrBytes s n).length = n := by
  simp [cstrBytes]

lemma cstrBytes_of_le (s : List Nat) (n : Nat) (h : s.length ≤ n) :
    cstrBytes s n = s ++ List.replicate (n - s.length) 0 := by
  unfold cstrBytes
  rw [List.take_append_eq_append_take, List.take_of_length_le h, List.take_replicate]
  congr 2
  omega

lemma filterMap_range_single {β : Type} (f : Nat → Option β) (n : Nat) (b : β)
    (h0 : f 0 = some b) (hrest : ∀ i, 0 < i → f i = none) :
    (List.range (n + 1)).filterMap f = [b] := by
  rw [List.range_succ_eq_map, List.filterMap_cons, h0]
  rw [List.filterMap_map]
  have hnil : List.filterMap (f ∘ Nat.succ) (List.range n) = [] := by
    rw [List.filterMap_eq_nil_iff]
    intro a _
    exact hrest (a + 1) (Nat.succ_pos a)
  rw [hnil]

/-- A page whose slots beyond slot 0 are all empty enumerates to exactly
slot 0's record. -/
lemma enumerate_single_page (s0 : Slot) (rest : List Slot) (d : Nat → Nat) (m : Nat)
    (hocc : s0.empty = false)
    (hrest : ∀ s ∈ rest, s.empty = true) :
    enumerate ⟨s0 :: rest, d, m⟩
      = [(0, deserializeBytes (readBytes d s0.offset s0.length))] := by
  have hempty : ∀ j, ((rest.getD j default).empty = true) := by
    intro j
    by_cases hj : j < rest.length
    · exact hrest _ (getD_mem rest j default hj)
    · rw [getD_eq_default_of_le rest j default (by omega)]
      rfl
  unfold enumerate
  rw [show MAX_SLOTS = 511 + 1 from rfl]
  apply filterMap_range_single
  · simp [hocc]
  · intro i hi
    cases i with
    | zero => omega
    | succ j =>
      simp only [List.getD_cons_succ]
      simp
      rw [← List.getD_eq_getElem?_getD]
      exact hempty j

/-- C10.  On a fresh page `addTuple` activates slot 0 with
`length = getSize` and copies exactly `getSize` bytes taken from the
serialized string (zero-padded past its terminator, independent of the
serialization's actual length); consequently any record whose
serialization fits within `getSize` bytes reads back with its original
field values. -/
theorem insert_stores_getSize_bytes (t : Tuple) (hfit : t.getSize < 1024) :
    ((addTuple freshPage t).1.slots.getD 0 default).length = t.getSize
    ∧ readBytes (addTuple freshPage t).1.data 3072 t.getSize
        = cstrBytes t.serialize t.getSize
    ∧ (t.serialize.length ≤ t.getSize →
        enumerate (addTuple freshPage t).1 = [(0, t.fields)]) := by
  have hu : u16 t.getSize = t.getSize := Nat.mod_eq_of_lt (by omega)
  have hfe : firstEmptyIdx freshPage.slots = some 0 := rfl
  have hroom : ¬ (PAGE_SIZE ≤ insertOffset freshPage 0 + t.getSize) := by
    show ¬ (4096 ≤ 3072 + t.getSize)
    omega
  rw [addTuple_some freshPage t 0 hfe, if_neg hroom]
  have hslots : freshPage.slots.set 0
      ⟨false, u16 (insertOffset freshPage 0), u16 t.getSize⟩
      = (⟨false, 3072, t.getSize⟩ : Slot) :: List.replicate 511 default := by
    rw [hu]
    rfl
  have hread : readBytes (writeBytes freshPage.data (insertOffset freshPage 0)
      (cstrBytes t.serialize t.getSize)) 3072 t.getSize
      = cstrBytes t.serialize t.getSize := by
    have h2 := readBytes_writeBytes (cstrBytes t.serialize t.getSize)
      freshPage.data (insertOffset freshPage 0)
    rw [cstrBytes_length] at h2
    exact h2
  refine ⟨?_, hread, ?_⟩
  · show ((freshPage.slots.set 0
      ⟨false, u16 (insertOffset freshPage 0), u16 t.getSize⟩).getD 0 default).length
      = t.getSize
    rw [hslots]
    rfl
  · intro hser
    have hroundtrip : deserializeBytes (cstrBytes t.serialize t.getSize) = t.fields := by
      rw [cstrBytes_of_le _ _ hser]
      exact deserializeBytes_serialize_zeros t _
    show enumerate ⟨freshPage.slots.set 0
        ⟨false, u16 (insertOffset freshPage 0), u16 t.getSize⟩,
      writeBytes freshPage.data (insertOffset freshPage 0)
        (cstrBytes t.serialize t.getSize),
      freshPage.metadata_size⟩ = [(0, t.fields)]
    rw [hslots, enumerate_single_page _ _ _ _ rfl
      (fun s hs => by rw [List.eq_of_mem_replicate hs]; rfl)]
    show [(0, deserializeBytes (readBytes (writeBytes freshPage.data
      (insertOffset freshPage 0) (cstrBytes t.serialize t.getSize)) 3072 t.getSize))]
      = [(0, t.fields)]
    rw [hread, hroundtrip]

/-- Witness for `insert_stores_getSize_bytes` at the single-field record
`[7]`, whose serialization is 2 bytes against `getSize = 4`. -/
theorem insert_stores_getSize_bytes_witness :
    ((addTuple freshPage ⟨[7]⟩).1.slots.getD 0 default).length = Tuple.getSize ⟨[7]⟩
    ∧ readBytes (addTuple freshPage ⟨[7]⟩).1.data 3072 (Tuple.getSize ⟨[7]⟩)
        = cstrBytes (Tuple.serialize ⟨[7]⟩) (Tuple.getSize ⟨[7]⟩)
    ∧ enumerate (addTuple freshPage ⟨[7]⟩).1 = [(0, [7])] :=
  ⟨(insert_stores_getSize_bytes ⟨[7]⟩ (by decide)).1,
   (insert_stores_getSize_bytes ⟨[7]⟩ (by decide)).2.1,
   (insert_stores_getSize_bytes ⟨[7]⟩ (by decide)).2.2 (by decide)⟩

/-! ### Compaction preserves content on well-laid-out pages -/

lemma compactAux_cons_empty (s : Slot) (rest : List Slot) (d : Nat → Nat) (noff : Nat)
    (h : s.empty = true) :
    compactAux (s :: rest) d noff
      = (s :: (compactAux rest d noff).1, (compactAux rest d noff).2) := by
  simp only [compactAux]
  rw [h, if_pos rfl]

lemma compactAux_cons_skip (s : Slot) (rest : List Slot) (d : Nat → Nat) (noff : Nat)
    (h : s.empty = false) (heq : s.offset = noff) :
    compactAux (s :: rest) d noff
      = (s :: (compactAux rest d (noff + s.length)).1,
         (compactAux rest d (noff + s.length)).2) := by
  simp only [compactAux]
  rw [h, if_neg (by simp), if_neg (by simp [heq])]

lemma compactAux_cons_move (s : Slot) (rest : List Slot) (d : Nat → Nat) (noff : Nat)
    (h : s.empty = false) (hne : s.offset ≠ noff) :
    compactAux (s :: rest) d noff
      = ({ s with offset := u16 noff } ::
          (compactAux rest (writeBytes d noff (readBytes d s.offset s.length))
            (noff + s.length)).1,
         (compactAux rest (writeBytes d noff (readBytes d s.offset s.length))
            (noff + s.length)).2) := by
  simp only [compactAux]
  rw [h, if_neg (by simp), if_pos hne]

/-- Main invariant of the compaction pass.  If the occupied slots of `ss`
lie above `noff`, end within the page, and appear in increasing,
non-overlapping offset order, then the pass preserves list length, arena
length, all bytes below `noff`, every slot's occupied flag and length,
empty slots verbatim, and — the heart of the claim — the byte content of
every occupied slot's range. -/
lemma compactAux_spec (ss : List Slot) : ∀ (d : Nat → Nat) (noff : Nat),
    ss.Pairwise (fun s t => s.empty = false → t.empty = false →
      s.offset + s.length ≤ t.offset) →
    (∀ s ∈ ss, s.empty = false → noff ≤ s.offset ∧ s.offset + s.length ≤ PAGE_SIZE) →
    (compactAux ss d noff).1.length = ss.length
    ∧ (∀ idx, idx < noff → (compactAux ss d noff).2 idx = d idx)
    ∧ (∀ k, ((compactAux ss d noff).1.getD k default).empty
          = (ss.getD k default).empty
        ∧ ((compactAux ss d noff).1.getD k default).length
          = (ss.getD k default).length
        ∧ ((ss.getD k default).empty = true →
            (compactAux ss d noff).1.getD k default = ss.getD k default)
        ∧ ((ss.getD k default).empty = false →
            readBytes (compactAux ss d noff).2
              ((compactAux ss d noff).1.getD k default).offset
              ((ss.getD k default).length)
            = readBytes d ((ss.getD k default).offset) ((ss.getD k default).length))) := by
  induction ss with
  | nil =>
    intro d noff hp hb
    refine ⟨rfl, fun idx _ => rfl, fun k => ⟨rfl, rfl, fun _ => rfl, fun h => ?_⟩⟩
    rw [getD_eq_default_of_le ([] : List Slot) k default (by simp)] at h
    exact absurd h (by decide)
  | cons s rest ih =>
    intro d noff hp hb
    have hphead : ∀ t ∈ rest, s.empty = false → t.empty = false →
        s.offset + s.length ≤ t.offset := (List.pairwise_cons.mp hp).1
    have hptail := (List.pairwise_cons.mp hp).2
    by_cases hs : s.empty = true
    · -- tombstoned slot: skipped entirely
      have hbtail : ∀ t ∈ rest, t.empty = false →
          noff ≤ t.offset ∧ t.offset + t.length ≤ PAGE_SIZE :=
        fun t ht hto => hb t (List.mem_cons_of_mem s ht) hto
      obtain ⟨ih1, ih3, ih4⟩ := ih d noff hptail hbtail
      rw [compactAux_cons_empty s rest d noff hs]
      refine ⟨by simpa using ih1, ih3, fun k => ?_⟩
      cases k with
      | zero =>
        refine ⟨rfl, rfl, fun _ => rfl, fun h => ?_⟩
        rw [List.getD_cons_zero] at h
        rw [hs] at h
        exact absurd h (by decide)
      | succ k =>
        simpa only [List.getD_cons_succ] using ih4 k
    · -- occupied slot
      have hsf : s.empty = false := by
        cases hcase : s.empty
        · rfl
        · exact absurd hcase hs
      obtain ⟨hnoff, hend⟩ := hb s (List.mem_cons_self s rest) hsf
      have hbtail : ∀ t ∈ rest, t.empty = false →
          noff + s.length ≤ t.offset ∧ t.offset + t.length ≤ PAGE_SIZE := by
        intro t ht hto
        refine ⟨?_, (hb t (List.mem_cons_of_mem s ht) hto).2⟩
        have := hphead t ht hsf hto
        omega
      by_cases hoff : s.offset = noff
      · -- already in place: no byte move
        obtain ⟨ih1, ih3, ih4⟩ := ih d (noff + s.length) hptail hbtail
        rw [compactAux_cons_skip s rest d noff hsf hoff]
        refine ⟨by simpa using ih1,
          fun idx hidx => ih3 idx (by omega), fun k => ?_⟩
        cases k with
        | zero =>
          refine ⟨rfl, rfl, fun h => rfl, fun _ => ?_⟩
          simp only [List.getD_cons_zero]
          refine readBytes_congr _ _ _ _ (fun idx h1 h2 => ih3 idx (by omega))
        | succ k =>
          obtain ⟨e1, e2, e3, e4⟩ := ih4 k
          exact ⟨by simpa only [List.getD_cons_succ] using e1,
            by simpa only [List.getD_cons_succ] using e2,
            by simpa only [List.getD_cons_succ] using e3,
            by simpa only [List.getD_cons_succ] using e4⟩
      · -- byte move from s.offset down to noff
        have hu16 : u16 noff = noff := Nat.mod_eq_of_lt (by
          have hps : PAGE_SIZE = 4096 := rfl
          omega)
        have hrlen : (readBytes d s.offset s.length).length = s.length :=
          readBytes_length d s.offset s.length
        obtain ⟨ih1, ih3, ih4⟩ := ih
          (writeBytes d noff (readBytes d s.offset s.length))
          (noff + s.length) hptail hbtail
        rw [compactAux_cons_move s rest d noff hsf hoff]
        refine ⟨by simpa using ih1,
          fun idx hidx => ?_, fun k => ?_⟩
        · rw [ih3 idx (by omega),
            writeBytes_at_lt (readBytes d s.offset s.length) d noff idx hidx]
        · cases k with
          | zero =>
            refine ⟨rfl, rfl, fun h => ?_, fun _ => ?_⟩
            · rw [List.getD_cons_zero] at h
              rw [hsf] at h
              exact absurd h (by decide)
            · simp only [List.getD_cons_zero]
              show readBytes (compactAux rest _ _).2 (u16 noff) s.length
                = readBytes d s.offset s.length
              rw [hu16]
              have hstep1 : readBytes (compactAux rest
                  (writeBytes d noff (readBytes d s.offset s.length))
                  (noff + s.length)).2 noff s.length
                  = readBytes (writeBytes d noff (readBytes d s.offset s.length))
                      noff s.length :=
                readBytes_congr _ _ _ _ (fun idx h1 h2 => ih3 idx (by omega))
              have hstep2 : readBytes (writeBytes d noff
                  (readBytes d s.offset s.length)) noff s.length
                  = readBytes d s.offset s.length := by
                have := readBytes_writeBytes (readBytes d s.offset s.length) d noff
                rwa [hrlen] at this
              rw [hstep1, hstep2]
          | succ k =>
            obtain ⟨e1, e2, e3, e4⟩ := ih4 k
            refine ⟨by simpa only [List.getD_cons_succ] using e1,
              by simpa only [List.getD_cons_succ] using e2,
              by simpa only [List.getD_cons_succ] using e3, fun hko => ?_⟩
            simp only [List.getD_cons_succ] at hko ⊢
            rw [e4 hko]
            have hmem : rest.getD k default ∈ rest :=
              getD_mem rest k default (occupied_lt_length rest k hko)
            have hsep : noff + s.length ≤ (rest.getD k default).offset :=
              (hbtail _ hmem hko).1
            exact readBytes_writeBytes_above _ d noff _ _ (by rw [hrlen]; omega)

/-- C3 amended.  For every page whose occupied slots lie in the data
region (`metadata_size ≤ offset`, `offset + length ≤ PAGE_SIZE`) with
byte ranges in increasing, non-overlapping slot-index order, one
`compactPage` call preserves every slot's occupied flag and length,
leaves empty slots untouched, and leaves the `enumerate` sequence — hence
the multiset of (slot index, record) pairs — unchanged; only occupied
slots' offsets change.  (Pages damaged by the delete-reuse insert bug can
violate this precondition; see `compactPage_changes_content`.) -/
theorem compactPage_preserves_content_when_sorted (p : SlottedPage)
    (hpair : p.slots.Pairwise (fun s t => s.empty = false → t.empty = false →
      s.offset + s.length ≤ t.offset))
    (hbound : ∀ s ∈ p.slots, s.empty = false →
      p.metadata_size ≤ s.offset ∧ s.offset + s.length ≤ PAGE_SIZE) :
    (∀ k, ((compactPage p).slots.getD k default).empty
          = (p.slots.getD k default).empty
        ∧ ((compactPage p).slots.getD k default).length
          = (p.slots.getD k default).length
        ∧ ((p.slots.getD k default).empty = true →
            (compactPage p).slots.getD k default = p.slots.getD k default))
    ∧ enumerate (compactPage p) = enumerate p := by
  obtain ⟨h1, h3, h4⟩ :=
    compactAux_spec p.slots p.data p.metadata_size hpair hbound
  constructor
  · intro k
    obtain ⟨e1, e2, e3, -⟩ := h4 k
    exact ⟨e1, e2, fun h => e3 h⟩
  · unfold enumerate
    apply List.filterMap_congr
    intro i _
    obtain ⟨e1, e2, e3, e4⟩ := h4 i
    have e1' : ((compactPage p).slots.getD i default).empty
        = (p.slots.getD i default).empty := e1
    have e2' : ((compactPage p).slots.getD i default).length
        = (p.slots.getD i default).length := e2
    by_cases he : (p.slots.getD i default).empty = true
    · dsimp only
      rw [if_pos (by rw [e1']; exact he), if_pos he]
    · have hef : (p.slots.getD i default).empty = false := by
        cases hcase : (p.slots.getD i default).empty
        · rfl
        · exact absurd hcase he
      have e4' : readBytes (compactPage p).data
          ((compactPage p).slots.getD i default).offset
          ((p.slots.getD i default).length)
          = readBytes p.data ((p.slots.getD i default).offset)
            ((p.slots.getD i default).length) := e4 hef
      dsimp only
      rw [if_neg (by rw [e1', hef]; decide), if_neg (by rw [hef]; decide)]
      rw [e2', e4']

/-- Witness for `compactPage_preserves_content_when_sorted` at the
single-record page `wpCompact`. -/
theorem compactPage_preserves_content_when_sorted_witness :
    (∀ k, ((compactPage wpCompact).slots.getD k default).empty
          = (wpCompact.slots.getD k default).empty
        ∧ ((compactPage wpCompact).slots.getD k default).length
          = (wpCompact.slots.getD k default).length
        ∧ ((wpCompact.slots.getD k default).empty = true →
            (compactPage wpCompact).slots.getD k default
              = wpCompact.slots.getD k default))
    ∧ enumerate (compactPage wpCompact) = enumerate wpCompact :=
  compactPage_preserves_content_when_sorted wpCompact
    (by
      show List.Pairwise _ [(⟨false, 3072, 4⟩ : Slot)]
      exact List.Pairwise.cons (fun b hb => absurd hb (List.not_mem_nil b))
        List.Pairwise.nil)
    (by
      intro s hs h
      rcases List.mem_singleton.mp hs with rfl
      exact ⟨by decide, by decide⟩)
